import Mathlib

/-!
# Go-Cowsay: the balloon formatter of `main.go`

A shallow embedding of the formatting functions of `main.go`
(`tabsToSpaces`, `calculateMaxWidth`, `normalizeStringsLength`,
`buildBalloon`) and of the Go standard-library calls they make.

Modelling conventions

* A Go `string` is an arbitrary sequence of bytes: `GoString = List UInt8`.
  Text need not be valid UTF-8; `utf8.RuneCountInString` counts every
  ill-formed byte as one rune, exactly as the Go decoder does.
* A Go `int` is a 64-bit two's-complement integer: a value of `Int` between
  `-2^63` and `maxInt = 2^63 - 1`, with arithmetic that wraps around
  (`wrapInt`). `buildBalloon64` is `buildBalloon` with this arithmetic: for
  the widths `maxInt - 1` and `maxInt` the border count `maxWidth + 2` wraps
  to a negative number and `strings.Repeat` panics. Every property stated
  for an arbitrary width is stated of `buildBalloon64`.
* In the pipeline of `main` the width is a rune count of strings held in
  memory, for which `maxWidth + 2` cannot wrap; there the sum is computed
  exactly (`buildBalloon`, `mainBalloon`). `buildBalloon64_eq_buildBalloon`
  and `mainBalloon64_eq_mainBalloon` show that the two agree whenever the sum
  fits an `int`. Rune counts and the difference `maxWidth - count` of a
  width that is not negative and a rune count never leave the range.
* A Go panic is the value `none`: `strings.Repeat` panics on a negative
  count, so every function that calls it returns an `Option`.
* A `[]string` is a `List GoString`; `append(result, x)` is `result ++ [x]`
  and a `for ... range` loop is a left fold over the slice.
-/

namespace GoCowsay

/-- A Go string: a sequence of bytes. -/
abbrev GoString := List UInt8

/-- The bytes of a string literal of the Go source (Go source text is UTF-8). -/
def utf8 (s : String) : GoString := s.data.flatMap String.utf8EncodeChar

/-! ## The standard-library functions used by `main.go` -/

/-- Concatenation of `n` copies of `s`. -/
def repeatCopies (s : GoString) : Nat → GoString
  | 0 => []
  | n + 1 => s ++ repeatCopies s n

/-- Go `strings.Repeat(s, count)`: `count` copies of `s`; it panics when
`count` is negative. -/
def stringsRepeat (s : GoString) (count : Int) : Option GoString :=
  if count < 0 then none else some (repeatCopies s count.toNat)

/-- Go `strings.Join(elems, sep)`. -/
def stringsJoin : List GoString → GoString → GoString
  | [], _ => []
  | [e], _ => e
  | e :: f :: rest, sep => e ++ sep ++ stringsJoin (f :: rest) sep

/-- Go `fmt.Sprintf("%s %s %s", a, b, c)` on three string operands. -/
def sprintf3 (a b c : GoString) : GoString :=
  a ++ utf8 " " ++ b ++ utf8 " " ++ c

/-- The table `first` of Go package `unicode/utf8` combined with its
`acceptRanges`: for a lead byte `c >= 0x80`, the length of the encoding it
starts and the range the second byte must lie in; `none` for a byte that
cannot start an encoding (the table entry `xx`). -/
def utf8First (c : Nat) : Option (Nat × Nat × Nat) :=
  if c < 0xC2 then none
  else if c ≤ 0xDF then some (2, 0x80, 0xBF)
  else if c = 0xE0 then some (3, 0xA0, 0xBF)
  else if c ≤ 0xEC then some (3, 0x80, 0xBF)
  else if c = 0xED then some (3, 0x80, 0x9F)
  else if c ≤ 0xEF then some (3, 0x80, 0xBF)
  else if c = 0xF0 then some (4, 0x90, 0xBF)
  else if c ≤ 0xF3 then some (4, 0x80, 0xBF)
  else if c = 0xF4 then some (4, 0x80, 0x8F)
  else none

/-- The byte at index `i` of `s` as a number (0 past the end; the decoder
only reads indices it has checked to be in range). -/
def byteAt (s : GoString) (i : Nat) : Nat := (s.getD i 0).toNat

/-- One iteration of the loop of `utf8.RuneCountInString` at a position
holding byte `c` followed by the bytes `rest`: the number of bytes the
iteration advances by (1 for ASCII, for an invalid lead byte, for a short
or ill-formed encoding; the encoding's length otherwise). -/
def utf8Advance (c : UInt8) (rest : GoString) : Nat :=
  if c.toNat < 0x80 then 1
  else
    match utf8First c.toNat with
    | none => 1
    | some (size, lo, hi) =>
      if rest.length + 1 < size then 1
      else if byteAt rest 0 < lo ∨ hi < byteAt rest 0 then 1
      else if size = 2 then 2
      else if byteAt rest 1 < 0x80 ∨ 0xBF < byteAt rest 1 then 1
      else if size = 3 then 3
      else if byteAt rest 2 < 0x80 ∨ 0xBF < byteAt rest 2 then 1
      else size

/-- The loop of `utf8.RuneCountInString`: `skip` is the number of bytes of
the current encoding still to be stepped over; a new rune is counted each
time the loop body runs. -/
def runeCountFrom : Nat → GoString → Nat
  | _, [] => 0
  | skip + 1, _ :: t => runeCountFrom skip t
  | 0, c :: t => runeCountFrom (utf8Advance c t - 1) t + 1

/-- Go `utf8.RuneCountInString(s)`. -/
def utf8RuneCountInString (s : GoString) : Int := (runeCountFrom 0 s : Nat)

/-- The replacement loop of `strings.Replace` for a non-empty `old`:
scanning left to right, each non-overlapping occurrence of `old` is
replaced by `new`; `skip` counts the bytes of a matched occurrence still
to be stepped over. -/
def replaceFrom (old new : GoString) : Nat → GoString → GoString
  | _, [] => []
  | skip + 1, _ :: t => replaceFrom old new skip t
  | 0, c :: t =>
    if old.isPrefixOf (c :: t) then new ++ replaceFrom old new (old.length - 1) t
    else c :: replaceFrom old new 0 t

/-- The replacement loop of `strings.Replace` for an empty `old`: `new` is
inserted after every rune; `left` counts the bytes of the current rune
still to be copied. -/
def insertFrom (new : GoString) : Nat → GoString → GoString
  | _, [] => []
  | left, c :: t =>
    let left1 := (if left = 0 then utf8Advance c t else left) - 1
    c :: (if left1 = 0 then new ++ insertFrom new 0 t else insertFrom new left1 t)

/-- Go `strings.ReplaceAll(s, old, new)`. -/
def stringsReplaceAll (s old new : GoString) : GoString :=
  if old = [] then new ++ insertFrom new 0 s else replaceFrom old new 0 s

/-! ## `main.go` -/

def topLeft : GoString := utf8 "/"
def topRight : GoString := utf8 "\\"
def bottomLeft : GoString := utf8 "\\"
def bottomRight : GoString := utf8 "/"
def side : GoString := utf8 "|"
def leftCorner : GoString := utf8 "<"
def rightCorner : GoString := utf8 ">"

/-- The body of the loop of `buildBalloon` for the line at index `i`: the
row appended to `result`. -/
def balloonRow (n i : Nat) (line : GoString) : GoString :=
  if n = 1 then sprintf3 leftCorner line rightCorner
  else if i = 0 then sprintf3 topLeft line topRight
  else if i = n - 1 then sprintf3 bottomLeft line bottomRight
  else sprintf3 side line side

/-- The function `buildBalloon` of `main.go` with the border count
`maxWidth + 2` computed exactly: the function as `main` runs it, on a width
that is a rune count of strings in memory. For an arbitrary `int` width see
`buildBalloon64`. -/
def buildBalloon (lines : List GoString) (maxWidth : Int) : Option GoString := do
  let result : List GoString := []
  let top := utf8 " " ++ (← stringsRepeat (utf8 "_") (maxWidth + 2))
  let bottom := utf8 " " ++ (← stringsRepeat (utf8 "-") (maxWidth + 2))
  let result := result ++ [top]
  let result := lines.enum.foldl
    (fun result il => result ++ [balloonRow lines.length il.1 il.2]) result
  let result := result ++ [bottom]
  pure (stringsJoin result (utf8 "\n"))

/-- The constant `tabWidth` of `tabsToSpaces`. -/
def tabWidth : Int := 4

/-- The body of the loop of `tabsToSpaces`: the slice `result` after the
iteration for `line`. -/
def tabsToSpacesStep (result : List GoString) (line : GoString) :
    Option (List GoString) := do
  let spaces ← stringsRepeat (utf8 " ") tabWidth
  pure (result ++ [stringsReplaceAll line (utf8 "\t") spaces])

/-- The function `tabsToSpaces` of `main.go`. -/
def tabsToSpaces (lines : List GoString) : Option (List GoString) :=
  lines.foldlM tabsToSpacesStep []

/-- The body of the loop of `calculateMaxWidth`: the variable `maxWidth`
after the iteration for `line`. -/
def calculateMaxWidthStep (maxWidth : Int) (line : GoString) : Int :=
  let length := utf8RuneCountInString line
  if length > maxWidth then length else maxWidth

/-- The function `calculateMaxWidth` of `main.go`. -/
def calculateMaxWidth (lines : List GoString) : Int :=
  lines.foldl calculateMaxWidthStep 0

/-- The body of the loop of `normalizeStringsLength`: the slice `result`
after the iteration for `line`. -/
def normalizeStep (maxWidth : Int) (result : List GoString) (line : GoString) :
    Option (List GoString) := do
  let padding ← stringsRepeat (utf8 " ") (maxWidth - utf8RuneCountInString line)
  pure (result ++ [line ++ padding])

/-- The function `normalizeStringsLength` of `main.go`. -/
def normalizeStringsLength (lines : List GoString) (maxWidth : Int) :
    Option (List GoString) :=
  lines.foldlM (normalizeStep maxWidth) []

/-- The formatting steps of `main` between reading the input and printing:
tab expansion, width calculation, padding and rendering of the balloon. -/
def mainBalloon (lines : List GoString) : Option GoString := do
  let lines ← tabsToSpaces lines
  let maxWidth := calculateMaxWidth lines
  let normalizedLines ← normalizeStringsLength lines maxWidth
  buildBalloon normalizedLines maxWidth

/-! ## Arithmetic on `int` -/

/-- The largest Go `int` on a 64-bit platform (`math.MaxInt64`). -/
def maxInt : Int := 9223372036854775807

/-- The result of Go arithmetic on `int` whose exact value is `x`: the
64-bit two's-complement value, between `-2^63` and `2^63 - 1`, that differs
from `x` by a multiple of `2^64`. -/
def wrapInt (x : Int) : Int :=
  (x + 9223372036854775808) % 18446744073709551616 - 9223372036854775808

/-- The function `buildBalloon` of `main.go` for an arbitrary `maxWidth` of
type `int`: the border count `maxWidth + 2` is computed with Go's wrapping
addition. -/
def buildBalloon64 (lines : List GoString) (maxWidth : Int) : Option GoString := do
  let result : List GoString := []
  let top := utf8 " " ++ (← stringsRepeat (utf8 "_") (wrapInt (maxWidth + 2)))
  let bottom := utf8 " " ++ (← stringsRepeat (utf8 "-") (wrapInt (maxWidth + 2)))
  let result := result ++ [top]
  let result := lines.enum.foldl
    (fun result il => result ++ [balloonRow lines.length il.1 il.2]) result
  let result := result ++ [bottom]
  pure (stringsJoin result (utf8 "\n"))

/-- The formatting steps of `main` with `buildBalloon64` for the rendering. -/
def mainBalloon64 (lines : List GoString) : Option GoString := do
  let lines ← tabsToSpaces lines
  let maxWidth := calculateMaxWidth lines
  let normalizedLines ← normalizeStringsLength lines maxWidth
  buildBalloon64 normalizedLines maxWidth

/-- Go `fmt.Println(s)` with one string operand: the text it writes. -/
def fmtPrintln (s : GoString) : GoString := s ++ utf8 "\n"

/-- The constant `cow` of `main`, a raw string literal: it starts with the
newline that follows the opening back quote and ends with the tab that
precedes the closing one. -/
def cow : GoString :=
  utf8 "\n         \\  ^__^\n          \\ (oo)\\_______\n            (__)\\       )\\/\\\n                ||----w |\n                ||     ||\n\t"

/-- The text `main` writes to standard output once the lines are read:
`fmt.Println(balloon)` followed by `fmt.Println(cow)`. -/
def mainStdout (lines : List GoString) : Option GoString := do
  let balloon ← mainBalloon lines
  pure (fmtPrintln balloon ++ fmtPrintln cow)

/-! ## Reading standard input: `bufio.Reader.ReadLine` -/

/-- The buffer size of `bufio.NewReader` (the constant `defaultBufSize` of
package `bufio`). -/
def defaultBufSize : Nat := 4096

/-- The error value of `bufio.Reader.ReadSlice`: `nil`, `ErrBufferFull` or
`io.EOF` (the source is taken to end without any other read error). -/
inductive ReadErr where
  | ok
  | bufferFull
  | eof
  deriving DecidableEq

/-- Go `bufio.Reader.ReadSlice` with the newline delimiter, on a reader with
a buffer of `size` bytes whose unread input is `input`: the slice returned,
the error, and the input left unread. The slice ends at the first newline
when one is among the next `size` unread bytes; otherwise it is the full
buffer with `ErrBufferFull`, or all the remaining input with `io.EOF`. -/
def readSlice (size : Nat) (input : List UInt8) : GoString × ReadErr × List UInt8 :=
  let window := input.take size
  let i := window.indexOf 10
  if i < window.length then (input.take (i + 1), ReadErr.ok, input.drop (i + 1))
  else if size ≤ input.length then (window, ReadErr.bufferFull, input.drop size)
  else (input, ReadErr.eof, [])

/-- Go `bufio.Reader.ReadLine`: `none` is the error `io.EOF`; otherwise the
line, the flag `isPrefix` and the input left unread. A full buffer is
returned as a line with `isPrefix` set (a carriage return at its end is put
back); any other line loses its end-of-line bytes. -/
def readLine (size : Nat) (input : List UInt8) : Option (GoString × Bool × List UInt8) :=
  match readSlice size input with
  | (line, ReadErr.bufferFull, rest) =>
    if line.getLast? = some 13 then some (line.dropLast, true, 13 :: rest)
    else some (line, true, rest)
  | (line, err, rest) =>
    if line = [] then (if err = ReadErr.ok then some ([], false, rest) else none)
    else if line.getLast? = some 10 then
      let drop := if 1 < line.length ∧ line.dropLast.getLast? = some 13 then 2 else 1
      some (line.take (line.length - drop), false, rest)
    else some (line, false, rest)

/-- The reading loop of `main`: `ReadLine` is called until it returns
`io.EOF`, each line returned is appended to `lines` and `isPrefix` is
discarded. The loop runs at most `fuel` times; `none` means the fuel ran
out. -/
def readLinesLoop (size : Nat) : Nat → List UInt8 → List GoString → Option (List GoString)
  | 0, _, _ => none
  | fuel + 1, input, lines =>
    match readLine size input with
    | none => some lines
    | some (line, _, rest) => readLinesLoop size fuel rest (lines ++ [line])

/-- The lines `main` reads from a standard input holding the bytes `input`. -/
def readLines (input : List UInt8) : Option (List GoString) :=
  readLinesLoop defaultBufSize (input.length + 1) input []

/-! ## Closed forms used to state the properties -/

/-- The rows appended by the loop of `buildBalloon`, one per line. -/
def contentRows (lines : List GoString) : List GoString :=
  lines.enum.map (fun il => balloonRow lines.length il.1 il.2)

/-- The line `line` padded to `maxWidth` runes, as `normalizeStringsLength`
computes it when the padding count is not negative. -/
def padded (maxWidth : Int) (line : GoString) : GoString :=
  line ++ List.replicate (maxWidth - utf8RuneCountInString line).toNat 32

/-- Every tab byte of `line` replaced by four space bytes, every other byte
kept, in order. -/
def expandTabs (line : GoString) : GoString :=
  line.flatMap (fun b => if b = 9 then [32, 32, 32, 32] else [b])

theorem utf8First_size {c size lo hi : Nat} (h : utf8First c = some (size, lo, hi)) :
    (size = 2 ∨ size = 3 ∨ size = 4) ∧ 0x80 ≤ lo := by
  unfold utf8First at h
  repeat' split at h
  all_goals simp at h
  all_goals omega

/-- Appending text that starts with an ASCII byte does not change how far
the decoder advances over the bytes before it. -/
theorem utf8Advance_append_ascii (c : UInt8) (rest t : GoString) {a : UInt8}
    (ha : a.toNat < 0x80) :
    utf8Advance c (rest ++ a :: t) = utf8Advance c rest := by
  unfold utf8Advance
  split
  · rfl
  · split
    · rfl
    · rename_i size lo hi h
      obtain ⟨hs, hlo⟩ := utf8First_size h
      have hlo' : a.toNat < lo := by omega
      rcases rest with _ | ⟨x, _ | ⟨y, _ | ⟨z, r⟩⟩⟩ <;>
        rcases hs with rfl | rfl | rfl <;>
        simp [byteAt, ha, hlo'] <;>
        (repeat' split) <;> omega

theorem utf8Advance_pos (c : UInt8) (rest : GoString) : 1 ≤ utf8Advance c rest := by
  unfold utf8Advance
  split
  · exact le_refl 1
  · split
    · exact le_refl 1
    · rename_i size lo hi h
      obtain ⟨hs, _⟩ := utf8First_size h
      repeat' split
      all_goals omega

theorem utf8Advance_le (c : UInt8) (rest : GoString) :
    utf8Advance c rest ≤ rest.length + 1 := by
  unfold utf8Advance
  split
  · omega
  · split
    · omega
    · rename_i size lo hi h
      obtain ⟨hs, _⟩ := utf8First_size h
      repeat' split
      all_goals omega

theorem utf8Advance_ascii {c : UInt8} (h : c.toNat < 0x80) (rest : GoString) :
    utf8Advance c rest = 1 := by
  simp [utf8Advance, h]

/-- An ASCII byte is a synchronisation point of the decoder: the runes
before it and the runes from it on are counted independently. -/
theorem runeCountFrom_append_ascii (s t : GoString) {a : UInt8} (ha : a.toNat < 0x80) :
    ∀ k, k ≤ s.length →
      runeCountFrom k (s ++ a :: t) = runeCountFrom k s + (runeCountFrom 0 t + 1) := by
  induction s with
  | nil =>
    intro k hk
    have : k = 0 := by simpa using hk
    subst this
    simp [runeCountFrom, utf8Advance_ascii ha]
  | cons c r ih =>
    intro k hk
    cases k with
    | zero =>
      have h1 := utf8Advance_le c r
      show runeCountFrom (utf8Advance c (r ++ a :: t) - 1) (r ++ a :: t) + 1 = _
      rw [utf8Advance_append_ascii c r t ha, ih _ (by omega)]
      simp only [runeCountFrom]
      omega
    | succ k =>
      show runeCountFrom k (r ++ a :: t) = _
      rw [ih k (by simpa using hk)]
      simp only [runeCountFrom]

/-! ## The string constants and `strings.Repeat` -/

theorem utf8_space : utf8 " " = [32] := by decide
theorem utf8_tab : utf8 "\t" = [9] := by decide
theorem utf8_newline : utf8 "\n" = [10] := by decide
theorem utf8_underscore : utf8 "_" = [95] := by decide
theorem utf8_hyphen : utf8 "-" = [45] := by decide

theorem repeatCopies_single (a : UInt8) (n : Nat) :
    repeatCopies [a] n = List.replicate n a := by
  induction n with
  | zero => rfl
  | succ n ih => simp [repeatCopies, ih, List.replicate_succ]

theorem stringsRepeat_single (a : UInt8) {count : Int} (h : 0 ≤ count) :
    stringsRepeat [a] count = some (List.replicate count.toNat a) := by
  simp [stringsRepeat, repeatCopies_single, not_lt.mpr h]

theorem stringsRepeat_neg (s : GoString) {count : Int} (h : count < 0) :
    stringsRepeat s count = none := by
  simp [stringsRepeat, h]

theorem runeCountFrom_replicate_ascii {a : UInt8} (ha : a.toNat < 0x80) (n : Nat) :
    runeCountFrom 0 (List.replicate n a) = n := by
  induction n with
  | zero => rfl
  | succ n ih => simp [List.replicate_succ, runeCountFrom, utf8Advance_ascii ha, ih]

theorem runeCountFrom_append_replicate (s : GoString) {a : UInt8} (ha : a.toNat < 0x80)
    (n : Nat) :
    runeCountFrom 0 (s ++ List.replicate n a) = runeCountFrom 0 s + n := by
  cases n with
  | zero => simp
  | succ n =>
    rw [List.replicate_succ, runeCountFrom_append_ascii s _ ha 0 (Nat.zero_le _),
      runeCountFrom_replicate_ascii ha]

theorem utf8RuneCountInString_nonneg (s : GoString) : 0 ≤ utf8RuneCountInString s :=
  Int.ofNat_nonneg _

/-- Padding with `n` spaces adds `n` to the rune count, whatever the bytes
of the line. -/
theorem utf8RuneCountInString_append_spaces (s : GoString) (n : Nat) :
    utf8RuneCountInString (s ++ List.replicate n 32) = utf8RuneCountInString s + n := by
  simp [utf8RuneCountInString, runeCountFrom_append_replicate s (a := 32) (by decide) n]

/-! ## The loops of `main.go` in closed form -/

theorem normalizeStep_eq (maxWidth : Int) (result : List GoString) (line : GoString) :
    normalizeStep maxWidth result line
      = if utf8RuneCountInString line ≤ maxWidth
        then some (result ++ [padded maxWidth line]) else none := by
  unfold normalizeStep
  split
  · rename_i h
    rw [utf8_space, stringsRepeat_single 32 (by omega)]
    rfl
  · rename_i h
    rw [stringsRepeat_neg _ (by omega)]
    rfl

theorem normalize_fold (maxWidth : Int) (lines : List GoString) :
    ∀ acc : List GoString,
      lines.foldlM (normalizeStep maxWidth) acc
      = if ∀ l ∈ lines, utf8RuneCountInString l ≤ maxWidth
        then some (acc ++ lines.map (padded maxWidth)) else none := by
  induction lines with
  | nil => intro acc; simp
  | cons l r ih =>
    intro acc
    rw [List.foldlM_cons, normalizeStep_eq]
    by_cases h : utf8RuneCountInString l ≤ maxWidth
    · simp only [h, if_true, Option.some_bind, Option.bind_eq_bind, ih, List.forall_mem_cons, true_and]
      split <;> simp
    · simp [h]

theorem normalizeStringsLength_eq (lines : List GoString) (maxWidth : Int) :
    normalizeStringsLength lines maxWidth
      = if ∀ l ∈ lines, utf8RuneCountInString l ≤ maxWidth
        then some (lines.map (padded maxWidth)) else none := by
  simpa using normalize_fold maxWidth lines []

theorem calculateMaxWidthStep_eq (m : Int) (line : GoString) :
    calculateMaxWidthStep m line = max m (utf8RuneCountInString line) := by
  unfold calculateMaxWidthStep
  simp only
  split <;> omega

theorem calculateMaxWidth_fold (lines : List GoString) :
    ∀ m : Int, 0 ≤ m →
      lines.foldl calculateMaxWidthStep m = max m (calculateMaxWidth lines) := by
  unfold calculateMaxWidth
  induction lines with
  | nil => intro m hm; simpa using hm
  | cons l r ih =>
    intro m hm
    have h0 := utf8RuneCountInString_nonneg l
    rw [List.foldl_cons, List.foldl_cons, calculateMaxWidthStep_eq, calculateMaxWidthStep_eq,
      ih _ (by omega), ih (max 0 (utf8RuneCountInString l)) (by omega)]
    omega

theorem calculateMaxWidth_nil : calculateMaxWidth [] = 0 := rfl

theorem calculateMaxWidth_cons (l : GoString) (r : List GoString) :
    calculateMaxWidth (l :: r) = max (utf8RuneCountInString l) (calculateMaxWidth r) := by
  have h0 := utf8RuneCountInString_nonneg l
  show List.foldl calculateMaxWidthStep (calculateMaxWidthStep 0 l) r = _
  rw [calculateMaxWidthStep_eq, calculateMaxWidth_fold r _ (by omega)]
  omega

theorem calculateMaxWidth_nonneg (lines : List GoString) : 0 ≤ calculateMaxWidth lines := by
  cases lines with
  | nil => exact le_refl 0
  | cons l r =>
    have h0 := utf8RuneCountInString_nonneg l
    rw [calculateMaxWidth_cons]
    omega

theorem le_calculateMaxWidth (lines : List GoString) :
    ∀ l ∈ lines, utf8RuneCountInString l ≤ calculateMaxWidth lines := by
  induction lines with
  | nil => intro l hl; cases hl
  | cons a r ih =>
    intro l hl
    rw [calculateMaxWidth_cons]
    rcases List.mem_cons.mp hl with rfl | h
    · omega
    · have := ih l h
      omega

theorem calculateMaxWidth_attained (lines : List GoString) (h : lines ≠ []) :
    ∃ l ∈ lines, utf8RuneCountInString l = calculateMaxWidth lines := by
  induction lines with
  | nil => exact absurd rfl h
  | cons a r ih =>
    rw [calculateMaxWidth_cons]
    rcases le_total (calculateMaxWidth r) (utf8RuneCountInString a) with h1 | h1
    · exact ⟨a, List.mem_cons_self _ _, by omega⟩
    · cases r with
      | nil =>
        have h0 := utf8RuneCountInString_nonneg a
        simp only [calculateMaxWidth_nil] at h1 ⊢
        exact ⟨a, List.mem_cons_self _ _, by omega⟩
      | cons b r' =>
        obtain ⟨l, hl, e⟩ := ih (List.cons_ne_nil _ _)
        exact ⟨l, List.mem_cons_of_mem _ hl, by omega⟩

theorem foldl_append_singleton {α β : Type} (f : α → β) (l : List α) :
    ∀ acc : List β, l.foldl (fun result x => result ++ [f x]) acc = acc ++ l.map f := by
  induction l with
  | nil => intro acc; simp
  | cons a r ih => intro acc; simp [ih]

theorem buildBalloon_eq (lines : List GoString) {maxWidth : Int} (h : 0 ≤ maxWidth + 2) :
    buildBalloon lines maxWidth
      = some (stringsJoin
          ((32 :: List.replicate (maxWidth + 2).toNat 95) ::
            (contentRows lines ++ [32 :: List.replicate (maxWidth + 2).toNat 45]))
          [10]) := by
  unfold buildBalloon
  rw [utf8_underscore, utf8_hyphen, utf8_space, utf8_newline,
    stringsRepeat_single 95 h, stringsRepeat_single 45 h]
  simp [foldl_append_singleton, contentRows]

theorem buildBalloon_neg (lines : List GoString) {maxWidth : Int} (h : maxWidth + 2 < 0) :
    buildBalloon lines maxWidth = none := by
  unfold buildBalloon
  rw [stringsRepeat_neg _ h]
  rfl

theorem contentRows_length (lines : List GoString) :
    (contentRows lines).length = lines.length := by
  simp [contentRows]

theorem replaceFrom_single (old : UInt8) (new s : GoString) :
    replaceFrom [old] new 0 s = s.flatMap (fun b => if b = old then new else [b]) := by
  induction s with
  | nil => rfl
  | cons c t ih =>
    by_cases h : c = old
    · subst h
      simp [replaceFrom, List.isPrefixOf, ih]
    · have h' : ¬ old = c := fun e => h e.symm
      simp [replaceFrom, List.isPrefixOf, ih, h, h']

theorem stringsReplaceAll_tab (line : GoString) :
    stringsReplaceAll line (utf8 "\t") [32, 32, 32, 32] = expandTabs line := by
  rw [utf8_tab]
  simp [stringsReplaceAll, replaceFrom_single, expandTabs]

theorem tabsToSpacesStep_eq (result : List GoString) (line : GoString) :
    tabsToSpacesStep result line = some (result ++ [expandTabs line]) := by
  have h : stringsRepeat (utf8 " ") tabWidth = some [32, 32, 32, 32] := by decide
  unfold tabsToSpacesStep
  rw [h]
  simp [stringsReplaceAll_tab]

theorem tabsToSpaces_fold (lines : List GoString) :
    ∀ acc : List GoString,
      lines.foldlM tabsToSpacesStep acc = some (acc ++ lines.map expandTabs) := by
  induction lines with
  | nil => intro acc; simp
  | cons l r ih => intro acc; simp [List.foldlM_cons, tabsToSpacesStep_eq, ih]

theorem tabsToSpaces_eq (lines : List GoString) :
    tabsToSpaces lines = some (lines.map expandTabs) := by
  simpa using tabsToSpaces_fold lines []

/-! ## Facts about tab expansion -/

theorem expandTabs_nil : expandTabs [] = [] := rfl

theorem expandTabs_cons_tab (t : GoString) :
    expandTabs (9 :: t) = 32 :: 32 :: 32 :: 32 :: expandTabs t := by
  simp [expandTabs]

theorem expandTabs_cons_other {c : UInt8} (h : c ≠ 9) (t : GoString) :
    expandTabs (c :: t) = c :: expandTabs t := by
  simp [expandTabs, h]

theorem tab_not_mem_expandTabs (line : GoString) : (9 : UInt8) ∉ expandTabs line := by
  induction line with
  | nil => simp [expandTabs_nil]
  | cons c t ih =>
    by_cases h : c = 9
    · subst h
      rw [expandTabs_cons_tab]
      simp only [List.mem_cons, not_or]
      exact ⟨by decide, by decide, by decide, by decide, ih⟩
    · rw [expandTabs_cons_other h]
      simp only [List.mem_cons, not_or]
      exact ⟨fun e => h e.symm, ih⟩

theorem expandTabs_of_no_tab {line : GoString} (h : (9 : UInt8) ∉ line) :
    expandTabs line = line := by
  induction line with
  | nil => rfl
  | cons c t ih =>
    simp only [List.mem_cons, not_or] at h
    rw [expandTabs_cons_other (fun e => h.1 e.symm), ih h.2]

theorem expandTabs_length (line : GoString) :
    (expandTabs line).length = line.length + 3 * line.count 9 := by
  induction line with
  | nil => rfl
  | cons c t ih =>
    by_cases h : c = 9
    · subst h
      rw [expandTabs_cons_tab]
      simp only [List.length_cons, List.count_cons_self, ih]
      omega
    · rw [expandTabs_cons_other h, List.count_cons_of_ne (fun e => h e.symm)]
      simp only [List.length_cons, ih]
      omega

theorem runeCountFrom_expandTabs (line : GoString) :
    ∀ p : GoString,
      runeCountFrom 0 (p ++ expandTabs line)
        = runeCountFrom 0 (p ++ line) + 3 * line.count 9 := by
  induction line with
  | nil => intro p; simp [expandTabs_nil]
  | cons c t ih =>
    intro p
    by_cases h : c = 9
    · subst h
      have hs : (32 : UInt8).toNat < 0x80 := by decide
      have ht : (9 : UInt8).toNat < 0x80 := by decide
      have h0 := ih []
      simp only [List.nil_append] at h0
      rw [expandTabs_cons_tab, runeCountFrom_append_ascii p _ hs 0 (Nat.zero_le _),
        runeCountFrom_append_ascii p _ ht 0 (Nat.zero_le _), List.count_cons_self]
      simp only [runeCountFrom, utf8Advance_ascii hs, Nat.sub_self, h0]
      omega
    · have e1 : p ++ expandTabs (c :: t) = (p ++ [c]) ++ expandTabs t := by
        rw [expandTabs_cons_other h]; simp
      have e2 : p ++ c :: t = (p ++ [c]) ++ t := by simp
      rw [e1, e2, ih (p ++ [c]), List.count_cons_of_ne (fun e => h e.symm)]

theorem utf8RuneCountInString_expandTabs (line : GoString) :
    utf8RuneCountInString (expandTabs line)
      = utf8RuneCountInString line + 3 * (line.count 9 : Nat) := by
  have h := runeCountFrom_expandTabs line []
  simp only [List.nil_append] at h
  simp [utf8RuneCountInString, h]

/-! ## Joining rows -/

theorem sprintf3_eq (a b c : GoString) : sprintf3 a b c = a ++ 32 :: (b ++ 32 :: c) := by
  simp [sprintf3, utf8_space]

/-! ## Well-formed text: one rune per Unicode scalar value -/

theorem toNat_land (a b : UInt8) : (a &&& b).toNat = a.toNat &&& b.toNat := by
  show (a.toBitVec &&& b.toBitVec).toNat = _
  simp [UInt8.toNat]

theorem toNat_lor (a b : UInt8) : (a ||| b).toNat = a.toNat ||| b.toNat := by
  show (a.toBitVec ||| b.toBitVec).toNat = _
  simp [UInt8.toNat]

theorem toNat_toUInt8 (v : UInt32) : (v.toUInt8).toNat = v.toNat % 256 := by
  show (UInt8.ofNat v.toNat).toNat = _
  simp [UInt8.toNat, UInt8.ofNat]

theorem toNat_shiftRight6 (v : UInt32) : (v >>> 6).toNat = v.toNat / 64 := by
  show (v.toBitVec >>> (UInt32.toBitVec (6 % 32))).toNat = _
  simp [UInt32.toNat, Nat.shiftRight_eq_div_pow]

theorem toNat_shiftRight12 (v : UInt32) : (v >>> 12).toNat = v.toNat / 4096 := by
  show (v.toBitVec >>> (UInt32.toBitVec (12 % 32))).toNat = _
  simp [UInt32.toNat, Nat.shiftRight_eq_div_pow]

theorem toNat_shiftRight18 (v : UInt32) : (v >>> 18).toNat = v.toNat / 262144 := by
  show (v.toBitVec >>> (UInt32.toBitVec (18 % 32))).toNat = _
  simp [UInt32.toNat, Nat.shiftRight_eq_div_pow]

theorem land_lor_mask (k : Nat) (n : Nat) (hk : k ≤ 6) :
    (n &&& (2 ^ k - 1)) ||| (256 - 2 ^ (k + 1)) = n % 2 ^ k + (256 - 2 ^ (k + 1)) := by
  have h : ∀ k, k < 7 → ∀ a, a < 64 → a < 2 ^ k →
      a ||| (256 - 2 ^ (k + 1)) = a + (256 - 2 ^ (k + 1)) := by decide
  rw [Nat.and_pow_two_sub_one_eq_mod]
  have h1 : n % 2 ^ k < 2 ^ k := Nat.mod_lt _ (by positivity)
  have h2 : 2 ^ k ≤ 2 ^ 6 := Nat.pow_le_pow_right (by decide) hk
  exact h k (by omega) _ (by omega) h1

/-- The numeric value of a continuation byte of an encoding. -/
theorem toNat_contByte (x : UInt8) : (x &&& 0x3f ||| 0x80).toNat = x.toNat % 64 + 128 := by
  rw [toNat_lor, toNat_land]
  exact land_lor_mask 6 x.toNat (by decide)

theorem toNat_lead2 (x : UInt8) : (x &&& 0x1f ||| 0xc0).toNat = x.toNat % 32 + 192 := by
  rw [toNat_lor, toNat_land]
  exact land_lor_mask 5 x.toNat (by decide)

theorem toNat_lead3 (x : UInt8) : (x &&& 0x0f ||| 0xe0).toNat = x.toNat % 16 + 224 := by
  rw [toNat_lor, toNat_land]
  exact land_lor_mask 4 x.toNat (by decide)

theorem toNat_lead4 (x : UInt8) : (x &&& 0x07 ||| 0xf0).toNat = x.toNat % 8 + 240 := by
  rw [toNat_lor, toNat_land]
  exact land_lor_mask 3 x.toNat (by decide)


theorem utf8Advance_two {b0 b1 : UInt8} (rest : GoString)
    (h0 : 0xC2 ≤ b0.toNat ∧ b0.toNat ≤ 0xDF) (h1 : 0x80 ≤ b1.toNat ∧ b1.toNat ≤ 0xBF) :
    utf8Advance b0 (b1 :: rest) = 2 := by
  have e : utf8First b0.toNat = some (2, 0x80, 0xBF) := by
    unfold utf8First
    rw [if_neg (by omega), if_pos (by omega)]
  have hb : byteAt (b1 :: rest) 0 = b1.toNat := rfl
  unfold utf8Advance
  rw [if_neg (by omega), e]
  simp only [hb, List.length_cons]
  split_ifs <;> omega

theorem utf8Advance_three {b0 b1 b2 : UInt8} (rest : GoString)
    (h0 : 0xE0 ≤ b0.toNat ∧ b0.toNat ≤ 0xEF) (h1 : 0x80 ≤ b1.toNat ∧ b1.toNat ≤ 0xBF)
    (hE0 : b0.toNat = 0xE0 → 0xA0 ≤ b1.toNat) (hED : b0.toNat = 0xED → b1.toNat ≤ 0x9F)
    (h2 : 0x80 ≤ b2.toNat ∧ b2.toNat ≤ 0xBF) :
    utf8Advance b0 (b1 :: b2 :: rest) = 3 := by
  have e : ∃ lo hi, utf8First b0.toNat = some (3, lo, hi) ∧ lo ≤ b1.toNat ∧ b1.toNat ≤ hi := by
    unfold utf8First
    rw [if_neg (by omega), if_neg (by omega)]
    by_cases c0 : b0.toNat = 0xE0
    · rw [if_pos c0]; exact ⟨_, _, rfl, hE0 c0, h1.2⟩
    · rw [if_neg c0]
      by_cases c1 : b0.toNat ≤ 0xEC
      · rw [if_pos c1]; exact ⟨_, _, rfl, h1.1, h1.2⟩
      · rw [if_neg c1]
        by_cases c2 : b0.toNat = 0xED
        · rw [if_pos c2]; exact ⟨_, _, rfl, h1.1, hED c2⟩
        · rw [if_neg c2, if_pos (by omega)]; exact ⟨_, _, rfl, h1.1, h1.2⟩
  obtain ⟨lo, hi, e, hlo, hhi⟩ := e
  have hb0 : byteAt (b1 :: b2 :: rest) 0 = b1.toNat := rfl
  have hb1 : byteAt (b1 :: b2 :: rest) 1 = b2.toNat := rfl
  unfold utf8Advance
  rw [if_neg (by omega), e]
  simp only [hb0, hb1, List.length_cons]
  split_ifs <;> omega

theorem utf8Advance_four {b0 b1 b2 b3 : UInt8} (rest : GoString)
    (h0 : 0xF0 ≤ b0.toNat ∧ b0.toNat ≤ 0xF4) (h1 : 0x80 ≤ b1.toNat ∧ b1.toNat ≤ 0xBF)
    (hF0 : b0.toNat = 0xF0 → 0x90 ≤ b1.toNat) (hF4 : b0.toNat = 0xF4 → b1.toNat ≤ 0x8F)
    (h2 : 0x80 ≤ b2.toNat ∧ b2.toNat ≤ 0xBF) (h3 : 0x80 ≤ b3.toNat ∧ b3.toNat ≤ 0xBF) :
    utf8Advance b0 (b1 :: b2 :: b3 :: rest) = 4 := by
  have e : ∃ lo hi, utf8First b0.toNat = some (4, lo, hi) ∧ lo ≤ b1.toNat ∧ b1.toNat ≤ hi := by
    unfold utf8First
    rw [if_neg (by omega), if_neg (by omega), if_neg (by omega), if_neg (by omega),
      if_neg (by omega), if_neg (by omega)]
    by_cases c0 : b0.toNat = 0xF0
    · rw [if_pos c0]; exact ⟨_, _, rfl, hF0 c0, h1.2⟩
    · rw [if_neg c0]
      by_cases c1 : b0.toNat ≤ 0xF3
      · rw [if_pos c1]; exact ⟨_, _, rfl, h1.1, h1.2⟩
      · rw [if_neg c1, if_pos (by omega)]; exact ⟨_, _, rfl, h1.1, hF4 (by omega)⟩
  obtain ⟨lo, hi, e, hlo, hhi⟩ := e
  have hb0 : byteAt (b1 :: b2 :: b3 :: rest) 0 = b1.toNat := rfl
  have hb1 : byteAt (b1 :: b2 :: b3 :: rest) 1 = b2.toNat := rfl
  have hb2 : byteAt (b1 :: b2 :: b3 :: rest) 2 = b3.toNat := rfl
  unfold utf8Advance
  rw [if_neg (by omega), e]
  simp only [hb0, hb1, hb2, List.length_cons]
  split_ifs <;> omega

theorem uint32_le_iff (a b : UInt32) : a ≤ b ↔ a.toNat ≤ b.toNat := Iff.rfl

theorem runeCountFrom_zero_cons (c : UInt8) (t : GoString) :
    runeCountFrom 0 (c :: t) = runeCountFrom (utf8Advance c t - 1) t + 1 := rfl

theorem runeCountFrom_succ_cons (k : Nat) (c : UInt8) (t : GoString) :
    runeCountFrom (k + 1) (c :: t) = runeCountFrom k t := rfl

/-- The decoder steps over the encoding of one scalar value in one
iteration. -/
theorem runeCountFrom_utf8EncodeChar (c : Char) (rest : GoString) :
    runeCountFrom 0 (String.utf8EncodeChar c ++ rest) = runeCountFrom 0 rest + 1 := by
  have hv : c.val.toNat < 55296 ∨ 57343 < c.val.toNat ∧ c.val.toNat < 1114112 := c.valid
  unfold String.utf8EncodeChar
  simp only [uint32_le_iff]
  have k1 : (0x7f : UInt32).toNat = 0x7f := rfl
  have k2 : (0x7ff : UInt32).toNat = 0x7ff := rfl
  have k3 : (0xffff : UInt32).toNat = 0xffff := rfl
  rw [k1, k2, k3]
  split
  · rename_i h
    have ha : (c.val.toUInt8).toNat < 0x80 := by rw [toNat_toUInt8]; omega
    rw [List.singleton_append, runeCountFrom_zero_cons, utf8Advance_ascii ha]
  · split
    · rename_i h1 h2
      have e := @utf8Advance_two ((c.val >>> 6).toUInt8 &&& 0x1f ||| 0xc0)
        (c.val.toUInt8 &&& 0x3f ||| 0x80) rest
        (by rw [toNat_lead2, toNat_toUInt8, toNat_shiftRight6]; omega)
        (by rw [toNat_contByte]; omega)
      simp only [List.cons_append, List.nil_append]
      rw [runeCountFrom_zero_cons, e]
      rfl
    · split
      · rename_i h1 h2 h3
        have e := @utf8Advance_three ((c.val >>> 12).toUInt8 &&& 0x0f ||| 0xe0)
          ((c.val >>> 6).toUInt8 &&& 0x3f ||| 0x80)
          (c.val.toUInt8 &&& 0x3f ||| 0x80) rest
          (by rw [toNat_lead3, toNat_toUInt8, toNat_shiftRight12]; omega)
          (by rw [toNat_contByte]; omega)
          (by rw [toNat_lead3, toNat_contByte, toNat_toUInt8, toNat_toUInt8,
                toNat_shiftRight12, toNat_shiftRight6]; omega)
          (by rw [toNat_lead3, toNat_contByte, toNat_toUInt8, toNat_toUInt8,
                toNat_shiftRight12, toNat_shiftRight6]; omega)
          (by rw [toNat_contByte]; omega)
        simp only [List.cons_append, List.nil_append]
        rw [runeCountFrom_zero_cons, e]
        rfl
      · rename_i h1 h2 h3
        have e := @utf8Advance_four ((c.val >>> 18).toUInt8 &&& 0x07 ||| 0xf0)
          ((c.val >>> 12).toUInt8 &&& 0x3f ||| 0x80)
          ((c.val >>> 6).toUInt8 &&& 0x3f ||| 0x80)
          (c.val.toUInt8 &&& 0x3f ||| 0x80) rest
          (by rw [toNat_lead4, toNat_toUInt8, toNat_shiftRight18]; omega)
          (by rw [toNat_contByte]; omega)
          (by rw [toNat_lead4, toNat_contByte, toNat_toUInt8, toNat_toUInt8,
                toNat_shiftRight18, toNat_shiftRight12]; omega)
          (by rw [toNat_lead4, toNat_contByte, toNat_toUInt8, toNat_toUInt8,
                toNat_shiftRight18, toNat_shiftRight12]; omega)
          (by rw [toNat_contByte]; omega)
          (by rw [toNat_contByte]; omega)
        simp only [List.cons_append, List.nil_append]
        rw [runeCountFrom_zero_cons, e]
        rfl

/-- On well-formed text `utf8.RuneCountInString` counts Unicode scalar
values: the encoding of a string of `n` characters has `n` runes. -/
theorem utf8RuneCountInString_utf8 (s : String) :
    utf8RuneCountInString (utf8 s) = s.length := by
  have h : ∀ cs : List Char,
      runeCountFrom 0 (cs.flatMap String.utf8EncodeChar) = cs.length := by
    intro cs
    induction cs with
    | nil => rfl
    | cons c r ih => rw [List.flatMap_cons, runeCountFrom_utf8EncodeChar, ih]; rfl
  unfold utf8RuneCountInString utf8
  rw [h]
  rfl


theorem expandTabs_append (a b : GoString) :
    expandTabs (a ++ b) = expandTabs a ++ expandTabs b := by
  simp [expandTabs]

/-- The byte 9 occurs in the encoding of a scalar value only when the
scalar value is the tab character. -/
theorem tab_not_mem_utf8EncodeChar {c : Char} (h : c ≠ Char.ofNat 9) :
    (9 : UInt8) ∉ String.utf8EncodeChar c := by
  have hne : c.val.toNat ≠ 9 := by
    intro e
    apply h
    apply Char.ext
    apply UInt32.toNat.inj
    rw [e]
    rfl
  have key : ∀ b : UInt8, b.toNat ≠ 9 → (9 : UInt8) ≠ b := by
    intro b hb e
    apply hb
    rw [← e]
    rfl
  have hc : ∀ x : UInt8, (9 : UInt8) ≠ (x &&& 0x3f ||| 0x80) :=
    fun x => key _ (by rw [toNat_contByte]; omega)
  unfold String.utf8EncodeChar
  simp only [uint32_le_iff]
  have k1 : (0x7f : UInt32).toNat = 0x7f := rfl
  rw [k1]
  split
  · rename_i h1
    simp only [List.mem_singleton]
    exact key _ (by rw [toNat_toUInt8]; omega)
  · split
    · simp only [List.mem_cons, List.mem_singleton, List.not_mem_nil, or_false, not_or]
      exact ⟨key _ (by rw [toNat_lead2]; omega), hc _⟩
    · split
      · simp only [List.mem_cons, List.mem_singleton, List.not_mem_nil, or_false, not_or]
        exact ⟨key _ (by rw [toNat_lead3]; omega), hc _, hc _⟩
      · simp only [List.mem_cons, List.mem_singleton, List.not_mem_nil, or_false, not_or]
        exact ⟨key _ (by rw [toNat_lead4]; omega), hc _, hc _, hc _⟩

/-- On well-formed text, replacing the byte 9 by four bytes 32 is replacing
each tab character by four space characters. -/
theorem expandTabs_utf8 (s : String) :
    expandTabs (utf8 s)
      = utf8 (String.mk (s.data.flatMap
          (fun c => if c = Char.ofNat 9 then List.replicate 4 (Char.ofNat 32) else [c]))) := by
  have h : ∀ cs : List Char,
      expandTabs (cs.flatMap String.utf8EncodeChar)
        = (cs.flatMap (fun c =>
            if c = Char.ofNat 9 then List.replicate 4 (Char.ofNat 32) else [c])).flatMap
          String.utf8EncodeChar := by
    intro cs
    induction cs with
    | nil => rfl
    | cons c r ih =>
      rw [List.flatMap_cons, expandTabs_append, ih, List.flatMap_cons, List.flatMap_append]
      by_cases hc : c = Char.ofNat 9
      · subst hc
        rw [if_pos rfl]
        rfl
      · rw [if_neg hc, expandTabs_of_no_tab (tab_not_mem_utf8EncodeChar hc)]
        simp
  exact h s.data

/-! ## `buildBalloon` with 64-bit arithmetic -/

theorem wrapInt_of_range {x : Int} (h0 : -9223372036854775808 ≤ x) (h1 : x ≤ maxInt) :
    wrapInt x = x := by
  unfold wrapInt
  unfold maxInt at h1
  omega

/-- Where the border count fits an `int`, exact and wrapping arithmetic
give the same balloon. -/
theorem buildBalloon64_eq_buildBalloon (lines : List GoString) {maxWidth : Int}
    (h0 : -9223372036854775808 ≤ maxWidth + 2) (h1 : maxWidth + 2 ≤ maxInt) :
    buildBalloon64 lines maxWidth = buildBalloon lines maxWidth := by
  unfold buildBalloon64 buildBalloon
  rw [wrapInt_of_range h0 h1]

theorem runeCountFrom_le_length (s : GoString) : ∀ k, runeCountFrom k s ≤ s.length := by
  induction s with
  | nil => intro k; cases k <;> exact le_refl 0
  | cons c t ih =>
    intro k
    cases k with
    | zero =>
      rw [runeCountFrom_zero_cons]
      have := ih (utf8Advance c t - 1)
      simp only [List.length_cons]
      omega
    | succ k =>
      rw [runeCountFrom_succ_cons]
      have := ih k
      simp only [List.length_cons]
      omega

theorem utf8RuneCountInString_le_length (s : GoString) :
    utf8RuneCountInString s ≤ (s.length : Int) := by
  unfold utf8RuneCountInString
  exact_mod_cast runeCountFrom_le_length s 0

/-- A width computed from strings of at most `maxInt - 2` bytes leaves room
for the two border columns. -/
theorem calculateMaxWidth_le_of_length (lines : List GoString)
    (h : ∀ l ∈ lines, (l.length : Int) ≤ maxInt - 2) :
    calculateMaxWidth lines ≤ maxInt - 2 := by
  cases hl : lines with
  | nil =>
    rw [calculateMaxWidth_nil]
    decide
  | cons a r =>
    rw [← hl]
    obtain ⟨l, hmem, e⟩ := calculateMaxWidth_attained lines (by rw [hl]; simp)
    have h1 := utf8RuneCountInString_le_length l
    have h2 := h l hmem
    omega

/-- On lines whose expansions are strings of at most `maxInt - 2` bytes, as
all strings held in memory are, the pipeline with wrapping arithmetic is the
pipeline with exact arithmetic. -/
theorem mainBalloon64_eq_mainBalloon (lines : List GoString)
    (h : ∀ l ∈ lines, ((expandTabs l).length : Int) ≤ maxInt - 2) :
    mainBalloon64 lines = mainBalloon lines := by
  have hw := calculateMaxWidth_nonneg (lines.map expandTabs)
  have hle : calculateMaxWidth (lines.map expandTabs) ≤ maxInt - 2 := by
    apply calculateMaxWidth_le_of_length
    intro l hl
    obtain ⟨x, hx, rfl⟩ := List.mem_map.mp hl
    exact h x hx
  unfold mainBalloon64 mainBalloon
  rw [tabsToSpaces_eq]
  simp only [Option.bind_eq_bind, Option.some_bind]
  rw [normalizeStringsLength_eq, if_pos (le_calculateMaxWidth _)]
  simp only [Option.some_bind]
  exact buildBalloon64_eq_buildBalloon _ (by omega) (by omega)

/-! ## The claims -/

/-- C1: for every collection `lines`, normalizing to the width
`calculateMaxWidth lines` returns a collection every line of which has
exactly that many runes; in particular all normalized lines have the same
rune count. -/
theorem normalizeStringsLength_width (lines : List GoString) :
    ∃ out, normalizeStringsLength lines (calculateMaxWidth lines) = some out ∧
      (∀ l ∈ out, utf8RuneCountInString l = calculateMaxWidth lines) ∧
      (∀ l ∈ out, ∀ l' ∈ out, utf8RuneCountInString l = utf8RuneCountInString l') := by
  have hall : ∀ l ∈ lines, utf8RuneCountInString l ≤ calculateMaxWidth lines :=
    le_calculateMaxWidth lines
  have hw : ∀ l ∈ lines.map (padded (calculateMaxWidth lines)),
      utf8RuneCountInString l = calculateMaxWidth lines := by
    intro l hl
    obtain ⟨x, hx, rfl⟩ := List.mem_map.mp hl
    have := hall x hx
    rw [padded, utf8RuneCountInString_append_spaces]
    omega
  refine ⟨lines.map (padded (calculateMaxWidth lines)), ?_, hw, ?_⟩
  · rw [normalizeStringsLength_eq, if_pos hall]
  · intro l hl l' hl'
    rw [hw l hl, hw l' hl']

/-- C5: on the empty collection the pipeline computes width 0 and returns
the top border ` __` and the bottom border ` --` joined by one newline,
with no content row. -/
theorem mainBalloon_empty :
    tabsToSpaces [] = some [] ∧
      calculateMaxWidth [] = 0 ∧
      normalizeStringsLength [] 0 = some [] ∧
      buildBalloon [] 0 = some (utf8 " __\n --") ∧
      mainBalloon [] = some (utf8 " __\n --") ∧
      utf8 " __\n --" = utf8 " __" ++ utf8 "\n" ++ utf8 " --" := by
  decide

/-- C6: `tabsToSpaces` returns as many lines as it is given, in the same
order, each with every tab replaced by four spaces and every other byte
kept in place, wherever the tab stands; an expanded line contains no tab,
has three bytes more per tab of the original and three runes more per tab
of the original; on well-formed text this is the replacement of each tab
character by four space characters. -/
theorem tabsToSpaces_expands (lines : List GoString) :
    ∃ out : List GoString, tabsToSpaces lines = some out ∧
      out.length = lines.length ∧
      out = lines.map expandTabs ∧
      (∀ (i : Nat) (line : GoString), lines[i]? = some line →
        out[i]? = some (expandTabs line)) ∧
      (∀ line, expandTabs line
          = line.flatMap (fun b => if b = 9 then [32, 32, 32, 32] else [b]) ∧
        (9 : UInt8) ∉ expandTabs line ∧
        (expandTabs line).length = line.length + 3 * line.count 9 ∧
        utf8RuneCountInString (expandTabs line)
          = utf8RuneCountInString line + 3 * (line.count 9 : Nat)) ∧
      (∀ s : String, expandTabs (utf8 s)
          = utf8 (String.mk (s.data.flatMap
              (fun c => if c = Char.ofNat 9 then List.replicate 4 (Char.ofNat 32) else [c])))) ∧
      utf8 "\t" = [9] ∧ utf8 "    " = [32, 32, 32, 32] := by
  refine ⟨lines.map expandTabs, tabsToSpaces_eq lines, by simp, rfl, ?_, ?_, expandTabs_utf8,
    by decide, by decide⟩
  · intro i line h
    simp [h]
  · intro line
    exact ⟨rfl, tab_not_mem_expandTabs line, expandTabs_length line,
      utf8RuneCountInString_expandTabs line⟩

/-- C7: a second pass of tab expansion changes nothing: `tabsToSpaces`
applied to its own result returns that result, and applied to a collection
whose lines contain no tab it returns the collection itself. -/
theorem tabsToSpaces_idempotent (lines : List GoString) :
    ∃ out, tabsToSpaces lines = some out ∧ tabsToSpaces out = some out ∧
      ((∀ l ∈ lines, (9 : UInt8) ∉ l) → tabsToSpaces lines = some lines) := by
  have hid : ∀ ls : List GoString, (∀ l ∈ ls, (9 : UInt8) ∉ l) → ls.map expandTabs = ls := by
    intro ls h
    conv_rhs => rw [← List.map_id ls]
    exact List.map_congr_left (fun l hl => expandTabs_of_no_tab (h l hl))
  refine ⟨lines.map expandTabs, tabsToSpaces_eq lines, ?_, ?_⟩
  · rw [tabsToSpaces_eq, hid]
    intro l hl
    obtain ⟨x, _, rfl⟩ := List.mem_map.mp hl
    exact tab_not_mem_expandTabs x
  · intro h
    rw [tabsToSpaces_eq, hid lines h]

/-- C8: the width of the empty collection is 0, the width of a one-line
collection is the rune count of its line, which for a line of well-formed
text is its number of Unicode scalar values, not its number of bytes: the
line "é" is two bytes long and has width 1. -/
theorem calculateMaxWidth_nil_single :
    calculateMaxWidth [] = 0 ∧
      (∀ line : GoString, calculateMaxWidth [line] = utf8RuneCountInString line) ∧
      (∀ s : String, calculateMaxWidth [utf8 s] = s.length) ∧
      utf8 "é" = [0xC3, 0xA9] ∧ (utf8 "é").length = 2 ∧ calculateMaxWidth [utf8 "é"] = 1 := by
  have h1 : ∀ line : GoString, calculateMaxWidth [line] = utf8RuneCountInString line := by
    intro line
    have h0 := utf8RuneCountInString_nonneg line
    rw [calculateMaxWidth_cons, calculateMaxWidth_nil]
    omega
  refine ⟨rfl, h1, ?_, by decide, by decide, by decide⟩
  intro s
  rw [h1, utf8RuneCountInString_utf8]

/-- C9: `calculateMaxWidth lines` is the maximum rune count over the lines:
no line has more runes, and a non-empty collection has a line with exactly
that many. -/
theorem calculateMaxWidth_is_max (lines : List GoString) :
    (∀ l ∈ lines, utf8RuneCountInString l ≤ calculateMaxWidth lines) ∧
      (lines ≠ [] → ∃ l ∈ lines, utf8RuneCountInString l = calculateMaxWidth lines) :=
  ⟨le_calculateMaxWidth lines, calculateMaxWidth_attained lines⟩

/-- The pipeline never panics: it is `buildBalloon` applied to the expanded
and padded lines and their width. -/
theorem mainBalloon_eq (lines : List GoString) :
    mainBalloon lines
      = buildBalloon
          ((lines.map expandTabs).map (padded (calculateMaxWidth (lines.map expandTabs))))
          (calculateMaxWidth (lines.map expandTabs)) := by
  unfold mainBalloon
  rw [tabsToSpaces_eq]
  simp only [Option.bind_eq_bind, Option.some_bind]
  rw [normalizeStringsLength_eq, if_pos (le_calculateMaxWidth _)]
  rfl

theorem cow_eq :
    cow = utf8 "\n" ++ utf8 "         \\  ^__^\n          \\ (oo)\\_______\n            (__)\\       )\\/\\\n                ||----w |\n                ||     ||\n\t" := by
  rfl

/-- C11: on the lines "hi" and "there" tab expansion changes nothing, the
width is 5, normalization gives "hi   " and "there", and the balloon is the
rows ` _______`, `/ hi    \`, `\ there /`, ` -------` joined by newlines. -/
theorem mainBalloon_hi_there :
    tabsToSpaces [utf8 "hi", utf8 "there"] = some [utf8 "hi", utf8 "there"] ∧
      calculateMaxWidth [utf8 "hi", utf8 "there"] = 5 ∧
      normalizeStringsLength [utf8 "hi", utf8 "there"] 5
        = some [utf8 "hi   ", utf8 "there"] ∧
      buildBalloon [utf8 "hi   ", utf8 "there"] 5
        = some (utf8 " _______\n/ hi    \\\n\\ there /\n -------") ∧
      mainBalloon [utf8 "hi", utf8 "there"]
        = some (utf8 " _______\n/ hi    \\\n\\ there /\n -------") ∧
      utf8 " _______\n/ hi    \\\n\\ there /\n -------"
        = stringsJoin [utf8 " _______", utf8 "/ hi    \\", utf8 "\\ there /", utf8 " -------"]
            (utf8 "\n") := by
  decide

/-- C12: the pipeline is total: for every collection, tab expansion, padding
to the computed width and rendering all return, so `mainBalloon` returns;
the padding count of every expanded line and the border count passed to
`strings.Repeat` are not negative. -/
theorem mainBalloon_total (lines : List GoString) :
    ∃ (expanded normalized : List GoString) (out : GoString),
      tabsToSpaces lines = some expanded ∧
      normalizeStringsLength expanded (calculateMaxWidth expanded) = some normalized ∧
      buildBalloon normalized (calculateMaxWidth expanded) = some out ∧
      mainBalloon lines = some out ∧
      (∀ l ∈ expanded, 0 ≤ calculateMaxWidth expanded - utf8RuneCountInString l) ∧
      0 ≤ calculateMaxWidth expanded + 2 := by
  have hw := calculateMaxWidth_nonneg (lines.map expandTabs)
  have hle := le_calculateMaxWidth (lines.map expandTabs)
  refine ⟨lines.map expandTabs,
    (lines.map expandTabs).map (padded (calculateMaxWidth (lines.map expandTabs))), _,
    tabsToSpaces_eq lines, ?_, buildBalloon_eq _ (by omega), ?_, ?_, by omega⟩
  · rw [normalizeStringsLength_eq, if_pos hle]
  · rw [mainBalloon_eq, buildBalloon_eq _ (by omega)]
  · intro l hl
    have := hle l hl
    omega

/-- C14: for every collection read, standard output receives the balloon, a
newline, an empty line, the fixed figure and a final newline; what follows
the balloon does not depend on the input. -/
theorem mainStdout_shape (lines : List GoString) :
    ∃ balloon, mainBalloon lines = some balloon ∧
      mainStdout lines
        = some (balloon ++ utf8 "\n" ++ utf8 "\n" ++
            utf8 "         \\  ^__^\n          \\ (oo)\\_______\n            (__)\\       )\\/\\\n                ||----w |\n                ||     ||\n\t" ++
            utf8 "\n") := by
  obtain ⟨_, _, out, _, _, _, h, _⟩ := mainBalloon_total lines
  refine ⟨out, h, ?_⟩
  unfold mainStdout
  rw [h]
  simp only [Option.bind_eq_bind, Option.some_bind, fmtPrintln, cow_eq, Option.pure_def,
    List.append_assoc]

/-! ## Rows and newlines -/

theorem runeCountFrom_ascii_cons {a : UInt8} (ha : a.toNat < 0x80) (t : GoString) :
    runeCountFrom 0 (a :: t) = runeCountFrom 0 t + 1 := by
  rw [runeCountFrom_zero_cons, utf8Advance_ascii ha]

theorem utf8RuneCountInString_border (n : Nat) {a : UInt8} (ha : a.toNat < 0x80) :
    utf8RuneCountInString (32 :: List.replicate n a) = n + 1 := by
  unfold utf8RuneCountInString
  rw [runeCountFrom_ascii_cons (by decide), runeCountFrom_replicate_ascii ha]
  rfl

/-- A line between two ASCII bytes on the left and one on the right has
three runes more than the line. -/
theorem utf8RuneCountInString_framed {a b c : UInt8} (ha : a.toNat < 0x80)
    (hb : b.toNat < 0x80) (hc : c.toNat < 0x80) (line : GoString) :
    utf8RuneCountInString (a :: b :: (line ++ [c])) = utf8RuneCountInString line + 3 := by
  unfold utf8RuneCountInString
  rw [runeCountFrom_ascii_cons ha, runeCountFrom_ascii_cons hb,
    runeCountFrom_append_ascii line [] hc 0 (Nat.zero_le _)]
  simp only [runeCountFrom]
  push_cast
  omega

theorem utf8RuneCountInString_append_ascii (s : GoString) {a : UInt8} (ha : a.toNat < 0x80) :
    utf8RuneCountInString (s ++ [a]) = utf8RuneCountInString s + 1 := by
  unfold utf8RuneCountInString
  rw [runeCountFrom_append_ascii s [] ha 0 (Nat.zero_le _)]
  simp only [runeCountFrom]
  push_cast
  omega

/-- A content row is a front part of three runes more than its line,
followed by the right-hand glyph. -/
theorem balloonRow_shape (n i : Nat) (line : GoString) :
    ∃ (front : GoString) (g : UInt8),
      balloonRow n i line = front ++ [g] ∧
      (g = 62 ∨ g = 92 ∨ g = 47 ∨ g = 124) ∧
      utf8RuneCountInString front = utf8RuneCountInString line + 3 ∧
      utf8RuneCountInString (balloonRow n i line) = utf8RuneCountInString line + 4 := by
  have e1 : leftCorner = [60] := by decide
  have e2 : rightCorner = [62] := by decide
  have e3 : topLeft = [47] := by decide
  have e4 : topRight = [92] := by decide
  have e5 : bottomLeft = [92] := by decide
  have e6 : bottomRight = [47] := by decide
  have e7 : side = [124] := by decide
  have k : ∀ a g : UInt8, a.toNat < 0x80 → g.toNat < 0x80 →
      (g = 62 ∨ g = 92 ∨ g = 47 ∨ g = 124) →
      ∃ (front : GoString) (g' : UInt8),
        [a] ++ 32 :: (line ++ 32 :: [g]) = front ++ [g'] ∧
        (g' = 62 ∨ g' = 92 ∨ g' = 47 ∨ g' = 124) ∧
        utf8RuneCountInString front = utf8RuneCountInString line + 3 ∧
        utf8RuneCountInString ([a] ++ 32 :: (line ++ 32 :: [g]))
          = utf8RuneCountInString line + 4 := by
    intro a g ha hg hgl
    have hf := utf8RuneCountInString_framed ha (b := 32) (c := 32) (by decide) (by decide) line
    have e : [a] ++ 32 :: (line ++ 32 :: [g]) = (a :: 32 :: (line ++ [32])) ++ [g] := by simp
    refine ⟨a :: 32 :: (line ++ [32]), g, e, hgl, hf, ?_⟩
    rw [e, utf8RuneCountInString_append_ascii _ hg, hf]
    omega
  unfold balloonRow
  simp only [sprintf3_eq, e1, e2, e3, e4, e5, e6, e7]
  split_ifs
  · exact k 60 62 (by decide) (by decide) (by decide)
  · exact k 47 92 (by decide) (by decide) (by decide)
  · exact k 92 47 (by decide) (by decide) (by decide)
  · exact k 124 124 (by decide) (by decide) (by decide)

theorem utf8RuneCountInString_padded {maxWidth : Int} {line : GoString}
    (h : utf8RuneCountInString line ≤ maxWidth) :
    utf8RuneCountInString (padded maxWidth line) = maxWidth := by
  rw [padded, utf8RuneCountInString_append_spaces]
  omega

theorem padded_of_eq {maxWidth : Int} {line : GoString}
    (h : utf8RuneCountInString line = maxWidth) : padded maxWidth line = line := by
  simp [padded, h]

/-- C17: the balloon of the pipeline is rectangular: with `w` the width
computed from the expanded lines, both border rows have `w + 3` runes and
every content row has `w + 4` runes, the last of which is the right-hand
glyph, standing after `w + 3` runes. -/
theorem mainBalloon_rectangular (lines : List GoString) :
    ∃ (expanded rows : List GoString) (top bottom : GoString),
      tabsToSpaces lines = some expanded ∧
      mainBalloon lines = some (stringsJoin (top :: (rows ++ [bottom])) (utf8 "\n")) ∧
      rows.length = lines.length ∧
      utf8RuneCountInString top = calculateMaxWidth expanded + 3 ∧
      utf8RuneCountInString bottom = calculateMaxWidth expanded + 3 ∧
      (∀ r ∈ rows, utf8RuneCountInString r = calculateMaxWidth expanded + 4) ∧
      (∀ r ∈ rows, ∃ (front : GoString) (g : UInt8), r = front ++ [g] ∧
        (g = 62 ∨ g = 92 ∨ g = 47 ∨ g = 124) ∧
        utf8RuneCountInString front = calculateMaxWidth expanded + 3) := by
  have hw := calculateMaxWidth_nonneg (lines.map expandTabs)
  have hle := le_calculateMaxWidth (lines.map expandTabs)
  have hrow : ∀ r ∈ contentRows ((lines.map expandTabs).map
      (padded (calculateMaxWidth (lines.map expandTabs)))),
      ∃ l ∈ lines.map expandTabs, ∃ n i,
        r = balloonRow n i (padded (calculateMaxWidth (lines.map expandTabs)) l) := by
    intro r hr
    obtain ⟨⟨i, l⟩, hil, rfl⟩ := List.mem_map.mp hr
    have hl : l ∈ (lines.map expandTabs).map
        (padded (calculateMaxWidth (lines.map expandTabs))) := by
      have := List.mem_map_of_mem Prod.snd hil
      rwa [List.enum_map_snd] at this
    obtain ⟨x, hx, rfl⟩ := List.mem_map.mp hl
    exact ⟨x, hx, _, i, rfl⟩
  refine ⟨lines.map expandTabs,
    contentRows ((lines.map expandTabs).map (padded (calculateMaxWidth (lines.map expandTabs)))),
    32 :: List.replicate (calculateMaxWidth (lines.map expandTabs) + 2).toNat 95,
    32 :: List.replicate (calculateMaxWidth (lines.map expandTabs) + 2).toNat 45,
    tabsToSpaces_eq lines, ?_, ?_, ?_, ?_, ?_, ?_⟩
  · rw [mainBalloon_eq, buildBalloon_eq _ (by omega), utf8_newline]
  · simp [contentRows_length]
  · rw [utf8RuneCountInString_border _ (by decide)]
    omega
  · rw [utf8RuneCountInString_border _ (by decide)]
    omega
  · intro r hr
    obtain ⟨l, hl, n, i, rfl⟩ := hrow r hr
    obtain ⟨_, _, _, _, _, h4⟩ := balloonRow_shape n i
      (padded (calculateMaxWidth (lines.map expandTabs)) l)
    rw [h4, utf8RuneCountInString_padded (hle l hl)]
  · intro r hr
    obtain ⟨l, hl, n, i, rfl⟩ := hrow r hr
    obtain ⟨front, g, e, hg, h3, _⟩ := balloonRow_shape n i
      (padded (calculateMaxWidth (lines.map expandTabs)) l)
    exact ⟨front, g, e, hg, by rw [h3, utf8RuneCountInString_padded (hle l hl)]⟩

theorem calculateMaxWidth_append (a b : List GoString) :
    calculateMaxWidth (a ++ b) = max (calculateMaxWidth a) (calculateMaxWidth b) := by
  induction a with
  | nil =>
    have := calculateMaxWidth_nonneg b
    rw [List.nil_append, calculateMaxWidth_nil]
    omega
  | cons l r ih =>
    rw [List.cons_append, calculateMaxWidth_cons, calculateMaxWidth_cons, ih]
    omega

theorem calculateMaxWidth_perm {a b : List GoString} (h : a.Perm b) :
    calculateMaxWidth a = calculateMaxWidth b := by
  induction h with
  | nil => rfl
  | cons x _ ih => rw [calculateMaxWidth_cons, calculateMaxWidth_cons, ih]
  | swap x y l =>
    simp only [calculateMaxWidth_cons]
    omega
  | trans _ _ ih1 ih2 => rw [ih1, ih2]

/-- C18: the width of a concatenation is the larger of the two widths; so
the width does not depend on the order of the lines and does not decrease
when lines are added, before or after. -/
theorem calculateMaxWidth_concat (a b : List GoString) :
    calculateMaxWidth (a ++ b) = max (calculateMaxWidth a) (calculateMaxWidth b) ∧
      calculateMaxWidth (b ++ a) = calculateMaxWidth (a ++ b) ∧
      (∀ c : List GoString, List.Perm a c → calculateMaxWidth c = calculateMaxWidth a) ∧
      calculateMaxWidth a ≤ calculateMaxWidth (a ++ b) ∧
      calculateMaxWidth a ≤ calculateMaxWidth (b ++ a) := by
  refine ⟨calculateMaxWidth_append a b, ?_, fun c h => (calculateMaxWidth_perm h).symm, ?_, ?_⟩
  · rw [calculateMaxWidth_append, calculateMaxWidth_append]
    omega
  · rw [calculateMaxWidth_append]
    omega
  · rw [calculateMaxWidth_append]
    omega

/-- C19: normalization is stable: the normalized collection has the same
width as the original, and normalizing it again to that width returns it
unchanged. -/
theorem normalizeStringsLength_stable (lines : List GoString) :
    ∃ normalized : List GoString,
      normalizeStringsLength lines (calculateMaxWidth lines) = some normalized ∧
      calculateMaxWidth normalized = calculateMaxWidth lines ∧
      normalizeStringsLength normalized (calculateMaxWidth lines) = some normalized := by
  have hle := le_calculateMaxWidth lines
  have hw : ∀ l ∈ lines.map (padded (calculateMaxWidth lines)),
      utf8RuneCountInString l = calculateMaxWidth lines := by
    intro l hl
    obtain ⟨x, hx, rfl⟩ := List.mem_map.mp hl
    exact utf8RuneCountInString_padded (hle x hx)
  refine ⟨lines.map (padded (calculateMaxWidth lines)), ?_, ?_, ?_⟩
  · rw [normalizeStringsLength_eq, if_pos hle]
  · cases hl : lines with
    | nil => rfl
    | cons a r =>
      rw [← hl]
      have hne : lines.map (padded (calculateMaxWidth lines)) ≠ [] := by
        rw [hl]; simp
      obtain ⟨l, hmem, e⟩ := calculateMaxWidth_attained _ hne
      rw [← e, hw l hmem]
  · rw [normalizeStringsLength_eq, if_pos (fun l hl => le_of_eq (hw l hl))]
    congr 1
    conv_rhs => rw [← List.map_id (lines.map (padded (calculateMaxWidth lines)))]
    exact List.map_congr_left (fun l hl => padded_of_eq (hw l hl))

/-! ## Reading lines -/

theorem readSlice_full {size : Nat} {input : List UInt8}
    (hno : (10 : UInt8) ∉ input.take size) (hlen : size ≤ input.length) :
    readSlice size input = (input.take size, ReadErr.bufferFull, input.drop size) := by
  have h1 : ¬ (input.take size).indexOf 10 < (input.take size).length := by
    rw [List.indexOf_lt_length]; exact hno
  simp only [readSlice, h1, hlen, if_false, if_true]

theorem readSlice_eof {size : Nat} {input : List UInt8}
    (hno : (10 : UInt8) ∉ input) (hlen : input.length < size) :
    readSlice size input = (input, ReadErr.eof, []) := by
  have h0 : input.take size = input := List.take_of_length_le (by omega)
  have h1 : ¬ (input.take size).indexOf 10 < (input.take size).length := by
    rw [List.indexOf_lt_length, h0]; exact hno
  have h2 : ¬ size ≤ input.length := by omega
  simp only [readSlice, h1, h2, if_false]

theorem readSlice_found {size : Nat} {line : GoString} (rest : List UInt8)
    (hno : (10 : UInt8) ∉ line) (hlen : line.length < size) :
    readSlice size (line ++ 10 :: rest) = (line ++ [10], ReadErr.ok, rest) := by
  have hidx : ∀ (l t : List UInt8), (10 : UInt8) ∉ l → (l ++ 10 :: t).indexOf 10 = l.length := by
    intro l t hl
    induction l with
    | nil => simp
    | cons a r ih =>
      simp only [List.mem_cons, not_or] at hl
      rw [List.cons_append, List.indexOf_cons_ne _ (fun e => hl.1 e.symm), ih hl.2]
      rfl
  have h0 : (line ++ 10 :: rest).take size = line ++ (10 :: rest).take (size - line.length) := by
    rw [List.take_append_eq_append_take, List.take_of_length_le (by omega)]
  obtain ⟨k, hk⟩ : ∃ k, size - line.length = k + 1 := ⟨size - line.length - 1, by omega⟩
  have h1 : ((line ++ 10 :: rest).take size).indexOf 10 = line.length := by
    rw [h0, hk, List.take_succ_cons, hidx line _ hno]
  have h2 : line.length < ((line ++ 10 :: rest).take size).length := by
    rw [h0, hk, List.take_succ_cons]
    simp
  have h3 : (line ++ 10 :: rest).take (line.length + 1) = line ++ [10] := by
    rw [List.take_append_eq_append_take, List.take_of_length_le (by omega)]
    simp
  have h4 : (line ++ 10 :: rest).drop (line.length + 1) = rest := by
    rw [List.drop_append_eq_append_drop, List.drop_of_length_le (by omega)]
    simp
  simp only [readSlice, h1, h2, if_true, h3, h4]

theorem readLine_nil {size : Nat} (hs : 0 < size) : readLine size [] = none := by
  have hrs := @readSlice_eof size [] (by simp) (by simpa using hs)
  simp only [readLine, hrs]
  rfl

/-- A full buffer without a newline is returned as a line of its own. -/
theorem readLine_full {size : Nat} (front rest : List UInt8) (hlen : front.length = size)
    (hno : (10 : UInt8) ∉ front) (hcr : front.getLast? ≠ some 13) :
    readLine size (front ++ rest) = some (front, true, rest) := by
  have h1 : (front ++ rest).take size = front := by
    rw [← hlen, List.take_left']
    rfl
  have h2 : (front ++ rest).drop size = rest := by
    rw [← hlen, List.drop_left']
    rfl
  have hrs := @readSlice_full size (front ++ rest) (by rw [h1]; exact hno)
    (by simp; omega)
  rw [h1, h2] at hrs
  simp only [readLine, hrs, hcr, if_false]

/-- A line shorter than the buffer and ended by a newline is returned whole,
without the newline. -/
theorem readLine_found {size : Nat} {line : GoString} (rest : List UInt8)
    (hno : (10 : UInt8) ∉ line) (hlen : line.length < size)
    (hcr : line.getLast? ≠ some 13) :
    readLine size (line ++ 10 :: rest) = some (line, false, rest) := by
  have hrs := readSlice_found rest hno hlen
  have e1 : line ++ [10] ≠ [] := by simp
  have e2 : (line ++ [10]).getLast? = some 10 := by simp
  have e3 : (line ++ [10]).dropLast = line := by simp
  have e4 : (line ++ [10]).take ((line ++ [10]).length - 1) = line := by simp
  simp only [readLine, hrs, e1, e2, e3, hcr, and_false, if_false, if_true, e4]

theorem readLine_shrinks {size : Nat} (hs : 2 ≤ size) {input : List UInt8} {line : GoString}
    {p : Bool} {rest : List UInt8} (h : readLine size input = some (line, p, rest)) :
    rest.length < input.length := by
  by_cases c1 : (input.take size).indexOf 10 < (input.take size).length
  · have hrs : readSlice size input
        = (input.take ((input.take size).indexOf 10 + 1), ReadErr.ok,
            input.drop ((input.take size).indexOf 10 + 1)) := by
      simp only [readSlice, c1, if_true]
    have hle : (input.take size).length ≤ input.length := by
      rw [List.length_take]
      exact Nat.min_le_right _ _
    have hi : (input.take size).indexOf 10 < input.length := lt_of_lt_of_le c1 hle
    simp only [readLine, hrs] at h
    split_ifs at h <;>
      simp only [Option.some.injEq, Prod.mk.injEq] at h <;>
      (obtain ⟨_, _, rfl⟩ := h; simp only [List.length_drop]; omega)
  · by_cases c2 : size ≤ input.length
    · have hrs : readSlice size input
          = (input.take size, ReadErr.bufferFull, input.drop size) := by
        simp only [readSlice, c1, c2, if_false, if_true]
      simp only [readLine, hrs] at h
      split_ifs at h <;>
        simp only [Option.some.injEq, Prod.mk.injEq] at h <;>
        (obtain ⟨_, _, rfl⟩ := h; simp only [List.length_drop, List.length_cons]; omega)
    · have hrs : readSlice size input = (input, ReadErr.eof, []) := by
        simp only [readSlice, c1, c2, if_false]
      simp only [readLine, hrs] at h
      have hne : input ≠ [] := by
        intro e
        subst e
        simp at h
      have : 0 < input.length := List.length_pos.mpr hne
      split_ifs at h <;>
        simp only [Option.some.injEq, Prod.mk.injEq] at h <;>
        (obtain ⟨_, _, rfl⟩ := h; simpa using this)

theorem readLinesLoop_some {size : Nat} {input : List UInt8} {line : GoString} {p : Bool}
    {rest : List UInt8} (h : readLine size input = some (line, p, rest)) (fuel : Nat)
    (lines : List GoString) :
    readLinesLoop size (fuel + 1) input lines = readLinesLoop size fuel rest (lines ++ [line]) := by
  simp only [readLinesLoop, h]

theorem readLinesLoop_none {size : Nat} {input : List UInt8} (h : readLine size input = none)
    (fuel : Nat) (lines : List GoString) :
    readLinesLoop size (fuel + 1) input lines = some lines := by
  simp only [readLinesLoop, h]

/-- The reading loop ends: with more fuel than there are bytes to read it
reaches `io.EOF`. -/
theorem readLinesLoop_isSome {size : Nat} (hs : 2 ≤ size) :
    ∀ (fuel : Nat) (input : List UInt8) (lines : List GoString), input.length < fuel →
      ∃ result, readLinesLoop size fuel input lines = some result := by
  intro fuel
  induction fuel with
  | zero => intro input lines h; omega
  | succ fuel ih =>
    intro input lines h
    cases hr : readLine size input with
    | none => exact ⟨lines, readLinesLoop_none hr fuel lines⟩
    | some r =>
      obtain ⟨line, p, rest⟩ := r
      have := readLine_shrinks hs hr
      rw [readLinesLoop_some hr]
      exact ih rest _ (by omega)

theorem readLines_isSome (input : List UInt8) : ∃ lines, readLines input = some lines :=
  readLinesLoop_isSome (by decide) _ input [] (Nat.lt_succ_self _)

/-- An input line longer than the buffer is read in pieces: the first
`defaultBufSize` bytes come back as one line, the remainder as the next. -/
theorem readLines_split (front tail : GoString) (hlen : front.length = defaultBufSize)
    (hf : (10 : UInt8) ∉ front) (hfc : front.getLast? ≠ some 13)
    (ht : (10 : UInt8) ∉ tail) (htl : tail.length < defaultBufSize)
    (htc : tail.getLast? ≠ some 13) :
    readLines (front ++ (tail ++ [10])) = some [front, tail] := by
  obtain ⟨k, hk⟩ : ∃ k, (front ++ (tail ++ [10])).length + 1 = k + 3 :=
    ⟨front.length + tail.length - 1, by
      simp only [List.length_append, List.length_singleton]
      have : 0 < front.length := by rw [hlen]; decide
      omega⟩
  have e : tail ++ [10] = tail ++ 10 :: [] := rfl
  unfold readLines
  rw [hk, readLinesLoop_some (readLine_full front (tail ++ [10]) hlen hf hfc), e,
    readLinesLoop_some (readLine_found [] ht htl htc),
    readLinesLoop_none (readLine_nil (by decide))]
  rfl

/-- C16 fails on the code: a standard input holding the single line of 4097
letters `a`, ended by a newline, is read as two Lines, the first 4096
letters and the last one; `ReadLine` reports the first piece with
`isPrefix` set, and `main` discards that flag. -/
theorem readLines_long_line :
    (List.replicate 4097 (97 : UInt8) ++ [10]).count 10 = 1 ∧
      (List.replicate 4097 (97 : UInt8) ++ [10]).getLast? = some 10 ∧
      readLine defaultBufSize (List.replicate 4097 97 ++ [10])
        = some (List.replicate 4096 97, true, [97, 10]) ∧
      readLines (List.replicate 4097 97 ++ [10])
        = some [List.replicate 4096 97, [97]] := by
  have e : List.replicate 4097 (97 : UInt8) ++ [10]
      = List.replicate 4096 97 ++ ([97] ++ [10]) := by
    rw [show (4097 : Nat) = 4096 + 1 from rfl, List.replicate_succ', List.append_assoc]
  have hlen : (List.replicate 4096 (97 : UInt8)).length = defaultBufSize := by
    rw [List.length_replicate]
    rfl
  have hf : (10 : UInt8) ∉ List.replicate 4096 (97 : UInt8) := by
    rw [List.mem_replicate]
    exact fun h => absurd h.2 (by decide)
  have hfc : (List.replicate 4096 (97 : UInt8)).getLast? ≠ some 13 := by
    rw [show (4096 : Nat) = 4095 + 1 from rfl, List.replicate_succ', List.getLast?_append]
    decide
  refine ⟨?_, ?_, ?_, ?_⟩
  · rw [List.count_append, List.count_replicate]
    decide
  · rw [List.getLast?_append]
    rfl
  · rw [e]
    exact readLine_full _ _ hlen hf hfc
  · rw [e]
    exact readLines_split _ [97] hlen hf hfc (by decide) (by decide) (by decide)

/-- Input lines shorter than the buffer, each ended by a newline, are read
one Line per input line, in order. -/
theorem readLinesLoop_short_lines {size : Nat} (hs : 0 < size) (ls : List GoString) :
    (∀ l ∈ ls, (10 : UInt8) ∉ l ∧ l.length < size ∧ l.getLast? ≠ some 13) →
    ∀ (fuel : Nat) (acc : List GoString),
      ((ls.map (fun l => l ++ [10])).flatten).length < fuel →
      readLinesLoop size fuel ((ls.map (fun l => l ++ [10])).flatten) acc = some (acc ++ ls) := by
  induction ls with
  | nil =>
    intro _ fuel acc hfuel
    obtain ⟨k, rfl⟩ : ∃ k, fuel = k + 1 := ⟨fuel - 1, by omega⟩
    simp only [List.map_nil, List.flatten_nil, List.append_nil]
    exact readLinesLoop_none (readLine_nil hs) k acc
  | cons l r ih =>
    intro h fuel acc hfuel
    obtain ⟨hno, hlen, hcr⟩ := h l (List.mem_cons_self _ _)
    obtain ⟨k, rfl⟩ : ∃ k, fuel = k + 1 := ⟨fuel - 1, by omega⟩
    have e : ((l :: r).map (fun l => l ++ [10])).flatten
        = l ++ 10 :: (r.map (fun l => l ++ [10])).flatten := by
      simp
    rw [e] at hfuel ⊢
    rw [readLinesLoop_some (readLine_found _ hno hlen hcr),
      ih (fun x hx => h x (List.mem_cons_of_mem _ hx)) k (acc ++ [l])
        (by simp only [List.length_append, List.length_cons] at hfuel; omega)]
    simp

theorem readLines_short_lines (ls : List GoString)
    (h : ∀ l ∈ ls, (10 : UInt8) ∉ l ∧ l.length < defaultBufSize ∧ l.getLast? ≠ some 13) :
    readLines ((ls.map (fun l => l ++ [10])).flatten) = some ls := by
  have := @readLinesLoop_short_lines defaultBufSize (by decide) ls h _ []
    (Nat.lt_succ_self _)
  simpa [readLines] using this

end GoCowsay
